import Mathlib

/-!
Verification development for the beartype code generator core:
the memoizing call cache (`beartype._util.cache.utilcachecall`),
the wrapper-scope registry (`beartype._check.code._codescope`), and
the breadth-first PEP code compiler (`beartype._decor._code._pep._pephint`).

Python dictionaries are embedded as association lists looked up by
decidable equality (Python dict lookup is hash-plus-`__eq__`, i.e.
value equality), mutable state is threaded explicitly, and raising
code returns `Except`.
-/

namespace Beartype

/-- Lookup in an association list, mirroring `dict.get`: the first
binding of the key wins. -/
def alookup {κ β : Type} [DecidableEq κ] : List (κ × β) → κ → Option β
  | [], _ => none
  | (k, v) :: rest, key => if k = key then some v else alookup rest key

/-- Assignment `d[k] = v` on an association list: overwrite the first
binding of `k` if present, else append a fresh binding. -/
def aset {κ β : Type} [DecidableEq κ] : List (κ × β) → κ → β → List (κ × β)
  | [], k, v => [(k, v)]
  | (k0, v0) :: rest, k, v =>
    if k0 = k then (k, v) :: rest else (k0, v0) :: aset rest k v

theorem alookup_cons_self {κ β : Type} [DecidableEq κ] (k : κ) (v : β)
    (m : List (κ × β)) : alookup ((k, v) :: m) k = some v := by
  simp [alookup]

theorem alookup_cons_ne {κ β : Type} [DecidableEq κ] {k k0 : κ} (v : β)
    (m : List (κ × β)) (h : k0 ≠ k) :
    alookup ((k0, v) :: m) k = alookup m k := by
  simp [alookup, h]

/-! ## Memoizing call cache (`utilcachecall.py`)

`callable_cached` flattens each call's positional and keyword
arguments into a single hashable key (`params_flat`) and consults two
dictionaries, one of cached return values and one of cached raised
exceptions, invoking the wrapped callable only on a miss of both. -/

/-- Hashable Python values passed to and returned by memoized
callables. `sentinelKeys` and `sentinelValues` embed the private
one-element sentinel tuples `_SENTINEL_KWARGS_KEYS` and
`_SENTINEL_KWARGS_VALUES` spliced into flattened keys. -/
inductive V : Type where
  | str (s : String)
  | tup (vs : List V)
  | sentinelKeys
  | sentinelValues

mutual

/-- Boolean value equality on `V`, mirroring Python `==` on these
hashable values. -/
def V.beq : V → V → Bool
  | .str a, .str b => a == b
  | .tup a, .tup b => beqListV a b
  | .sentinelKeys, .sentinelKeys => true
  | .sentinelValues, .sentinelValues => true
  | _, _ => false

/-- Pointwise `V.beq` on lists. -/
def beqListV : List V → List V → Bool
  | [], [] => true
  | a :: as, b :: bs => V.beq a b && beqListV as bs
  | _, _ => false

end

mutual

theorem eqV_of_beq : (a b : V) → V.beq a b = true → a = b
  | .str a, .str b, h => by
    have hab : a = b := by simpa [V.beq] using h
    rw [hab]
  | .tup a, .tup b, h => by
    have hab : a = b := eqListV_of_beq a b (by simpa [V.beq] using h)
    rw [hab]
  | .sentinelKeys, .sentinelKeys, _ => rfl
  | .sentinelValues, .sentinelValues, _ => rfl
  | .str _, .tup _, h => by simp [V.beq] at h
  | .str _, .sentinelKeys, h => by simp [V.beq] at h
  | .str _, .sentinelValues, h => by simp [V.beq] at h
  | .tup _, .str _, h => by simp [V.beq] at h
  | .tup _, .sentinelKeys, h => by simp [V.beq] at h
  | .tup _, .sentinelValues, h => by simp [V.beq] at h
  | .sentinelKeys, .str _, h => by simp [V.beq] at h
  | .sentinelKeys, .tup _, h => by simp [V.beq] at h
  | .sentinelKeys, .sentinelValues, h => by simp [V.beq] at h
  | .sentinelValues, .str _, h => by simp [V.beq] at h
  | .sentinelValues, .tup _, h => by simp [V.beq] at h
  | .sentinelValues, .sentinelKeys, h => by simp [V.beq] at h

theorem eqListV_of_beq : (a b : List V) → beqListV a b = true → a = b
  | [], [], _ => rfl
  | a :: as, b :: bs, h => by
    have hsplit : V.beq a b = true ∧ beqListV as bs = true := by
      simpa [beqListV, Bool.and_eq_true] using h
    have h1 := eqV_of_beq a b hsplit.1
    have h2 := eqListV_of_beq as bs hsplit.2
    rw [h1, h2]
  | [], _ :: _, h => by simp [beqListV] at h
  | _ :: _, [], h => by simp [beqListV] at h

end

mutual

theorem beqV_refl : (a : V) → V.beq a a = true
  | .str s => by simp [V.beq]
  | .tup vs => by simpa [V.beq] using beqListV_refl vs
  | .sentinelKeys => rfl
  | .sentinelValues => rfl

theorem beqListV_refl : (l : List V) → beqListV l l = true
  | [] => rfl
  | v :: vs => by
    simp only [beqListV, Bool.and_eq_true]
    exact ⟨beqV_refl v, beqListV_refl vs⟩

end

instance : DecidableEq V := fun a b =>
  if h : V.beq a b = true then isTrue (eqV_of_beq a b h)
  else isFalse (fun hab => h (hab ▸ beqV_refl a))

mutual

/-- Value contains no occurrence of either private kwargs sentinel
object (callers of the decorated wrapper never see those objects, so
arguments actually passed satisfy this). -/
def V.sentinelFree : V → Bool
  | .str _ => true
  | .tup vs => sentinelFreeList vs
  | .sentinelKeys => false
  | .sentinelValues => false

/-- List-wise conjunction of `V.sentinelFree`. -/
def sentinelFreeList : List V → Bool
  | [] => true
  | v :: vs => v.sentinelFree && sentinelFreeList vs

end

/-- Flattening of a call's arguments into the single cache key
`params_flat` built by `_callable_cached`: with keyword arguments the
key is the positional tuple, a sentinel, the keyword names, a second
sentinel, then the keyword values, all concatenated into one flat
tuple; with exactly one positional argument and no keywords the key is
that argument itself; otherwise it is the positional tuple. -/
def params_flat (args : List V) (kwargs : List (String × V)) : V :=
  match kwargs with
  | _ :: _ =>
    .tup (args ++ [V.sentinelKeys] ++ kwargs.map (fun kv => V.str kv.1) ++
      [V.sentinelValues] ++ kwargs.map (fun kv => kv.2))
  | [] =>
    match args with
    | [a] => a
    | _ => .tup args

/-- Exception object raised out of the memoized wrapper. `raisedAt`
records which invocation of the wrapped callable created the object,
so equal `raisedAt` fields mean the very same raise (object identity),
not a fresh exception. -/
structure ExcObj : Type where
  raisedAt : Nat
  msg : String
deriving DecidableEq

/-- Memoization state closed over by the wrapper `_callable_cached`:
`params_flat_to_return_value`, `params_flat_to_exception`, plus a
ghost counter of how many times the wrapped callable was invoked. -/
structure MemoState : Type where
  retMap : List (V × V)
  excMap : List (V × ExcObj)
  calls : Nat

/-- One call of the wrapper `_callable_cached(*args, **kwargs)`: look
the flattened key up in the exception cache, then in the return-value
cache, and only on a double miss invoke the wrapped callable `f`,
caching whichever of a value or an exception it produces. -/
def callable_cached (f : List V → List (String × V) → Except String V)
    (st : MemoState) (args : List V) (kwargs : List (String × V)) :
    Except ExcObj V × MemoState :=
  let key := params_flat args kwargs
  match alookup st.excMap key with
  | some e => (.error e, st)
  | none =>
    match alookup st.retMap key with
    | some v => (.ok v, st)
    | none =>
      match f args kwargs with
      | .ok v =>
        (.ok v, { st with retMap := (key, v) :: st.retMap, calls := st.calls + 1 })
      | .error m =>
        let e : ExcObj := ⟨st.calls, m⟩
        (.error e, { st with excMap := (key, e) :: st.excMap, calls := st.calls + 1 })

/-- One call shape of the memoized wrapper. -/
structure Call : Type where
  args : List V
  kwargs : List (String × V)

/-- Cache key of a call. -/
def Call.key (c : Call) : V := params_flat c.args c.kwargs

/-- Run a batch of calls through the wrapper, keeping only the state. -/
def runCalls (f : List V → List (String × V) → Except String V) :
    List Call → MemoState → MemoState
  | [], st => st
  | c :: rest, st => runCalls f rest (callable_cached f st c.args c.kwargs).2

/-- Result `r` is what the cache at state `st` stores for key `k`:
either a cached exception object (checked first by the wrapper) or,
with no cached exception, a cached return value. -/
def CachedAt (st : MemoState) (k : V) : Except ExcObj V → Prop
  | .error e => alookup st.excMap k = some e
  | .ok v => alookup st.excMap k = none ∧ alookup st.retMap k = some v

theorem callable_cached_caches (f : List V → List (String × V) → Except String V)
    (st : MemoState) (a : List V) (kw : List (String × V)) :
    CachedAt (callable_cached f st a kw).2 (params_flat a kw)
      (callable_cached f st a kw).1 := by
  cases hexc : alookup st.excMap (params_flat a kw) with
  | some e => simp [callable_cached, CachedAt, hexc]
  | none =>
    cases hret : alookup st.retMap (params_flat a kw) with
    | some v => simp [callable_cached, CachedAt, hexc, hret]
    | none =>
      cases hf : f a kw with
      | ok v =>
        simp [callable_cached, CachedAt, hexc, hret, hf, alookup_cons_self]
      | error m =>
        simp [callable_cached, CachedAt, hexc, hret, hf, alookup_cons_self]

theorem callable_cached_preserves
    (f : List V → List (String × V) → Except String V) (st : MemoState)
    (a : List V) (kw : List (String × V)) {k : V} {r : Except ExcObj V}
    (h : CachedAt st k r) : CachedAt (callable_cached f st a kw).2 k r := by
  cases hexc : alookup st.excMap (params_flat a kw) with
  | some e => simpa [callable_cached, hexc] using h
  | none =>
    cases hret : alookup st.retMap (params_flat a kw) with
    | some v => simpa [callable_cached, hexc, hret] using h
    | none =>
      have hkey : params_flat a kw ≠ k := by
        intro hk
        subst hk
        cases r with
        | error e =>
          rw [CachedAt] at h
          rw [h] at hexc
          exact Option.noConfusion hexc
        | ok v =>
          rw [CachedAt] at h
          rw [h.2] at hret
          exact Option.noConfusion hret
      cases hf : f a kw with
      | ok v =>
        cases r with
        | error e => simpa [callable_cached, CachedAt, hexc, hret, hf] using h
        | ok w =>
          rw [CachedAt] at h
          simp only [callable_cached, CachedAt, hexc, hret, hf]
          exact ⟨h.1, by rw [alookup_cons_ne _ _ hkey]; exact h.2⟩
      | error m =>
        cases r with
        | error e =>
          rw [CachedAt] at h
          simp only [callable_cached, CachedAt, hexc, hret, hf]
          rw [alookup_cons_ne _ _ hkey]
          exact h
        | ok w =>
          rw [CachedAt] at h
          simp only [callable_cached, CachedAt, hexc, hret, hf]
          exact ⟨by rw [alookup_cons_ne _ _ hkey]; exact h.1, h.2⟩

theorem runCalls_preserves (f : List V → List (String × V) → Except String V)
    (cs : List Call) (st : MemoState) {k : V} {r : Except ExcObj V}
    (h : CachedAt st k r) : CachedAt (runCalls f cs st) k r := by
  induction cs generalizing st with
  | nil => simpa [runCalls] using h
  | cons c rest ih =>
    exact ih _ (callable_cached_preserves f st c.args c.kwargs h)

theorem callable_cached_hit (f : List V → List (String × V) → Except String V)
    (st : MemoState) (a : List V) (kw : List (String × V)) {r : Except ExcObj V}
    (h : CachedAt st (params_flat a kw) r) :
    callable_cached f st a kw = (r, st) := by
  cases r with
  | error e =>
    rw [CachedAt] at h
    simp [callable_cached, h]
  | ok v =>
    rw [CachedAt] at h
    simp [callable_cached, h.1, h.2]

/-- C1. After a first wrapper call with arguments flattening to key
`K` that produced result `r` (a value, or an exception object tagged
with the invocation that raised it), every later call whose arguments
flatten to a key value-equal to `K` — regardless of the calls in
between — returns exactly `r` (the identical exception object when `r`
raised, as witnessed by the preserved `raisedAt` tag) while leaving
the state, including the count of invocations of the wrapped callable,
unchanged: the wrapped callable is not invoked again. -/
theorem callable_cached_repeat_call
    (f : List V → List (String × V) → Except String V) (st0 : MemoState)
    (a a2 : List V) (kw kw2 : List (String × V)) (mid : List Call)
    (hkey : params_flat a2 kw2 = params_flat a kw) :
    (callable_cached f
        (runCalls f mid (callable_cached f st0 a kw).2) a2 kw2) =
      ((callable_cached f st0 a kw).1,
        runCalls f mid (callable_cached f st0 a kw).2) := by
  apply callable_cached_hit
  rw [hkey]
  exact runCalls_preserves f mid _ (callable_cached_caches f st0 a kw)

/-- Witness for C1 at a concrete raising callable: the first call
raises, a different call intervenes, and the repeat call re-raises
the identical exception object without re-invoking the callable. -/
theorem callable_cached_repeat_call_witness :
    (params_flat [V.str "p"] [] = params_flat [V.str "p"] []) ∧
      (callable_cached (fun _ _ => .error "boom")
          (runCalls (fun _ _ => .error "boom") [⟨[V.str "q"], []⟩]
            (callable_cached (fun _ _ => .error "boom")
              ⟨[], [], 0⟩ [V.str "p"] []).2) [V.str "p"] []) =
        ((callable_cached (fun _ _ => .error "boom") ⟨[], [], 0⟩ [V.str "p"] []).1,
          runCalls (fun _ _ => .error "boom") [⟨[V.str "q"], []⟩]
            (callable_cached (fun _ _ => .error "boom")
              ⟨[], [], 0⟩ [V.str "p"] []).2) :=
  ⟨rfl, callable_cached_repeat_call (fun _ _ => .error "boom")
    ⟨[], [], 0⟩ [V.str "p"] [V.str "p"] [] [] [⟨[V.str "q"], []⟩] rfl⟩

/-- Call contains no occurrence of the private kwargs sentinels among
its positional arguments or keyword-argument values. -/
def Call.sentinelFree (c : Call) : Bool :=
  sentinelFreeList c.args && c.kwargs.all (fun kv => kv.2.sentinelFree)

/-- Key collapse performed by the single-positional-argument space
optimization of `_callable_cached`: a call passing exactly one
positional argument that is the tuple of another call's positional
arguments (both calls keyword-free) flattens to the same key. -/
def keyCollapse (c1 c2 : Call) : Prop :=
  c1.kwargs = [] ∧ c2.kwargs = [] ∧ c1.args = [V.tup c2.args]

theorem sentinelFreeList_mem {l : List V} (h : sentinelFreeList l = true)
    {v : V} (hv : v ∈ l) : v.sentinelFree = true := by
  induction l with
  | nil => cases hv
  | cons a as ih =>
    rw [sentinelFreeList, Bool.and_eq_true] at h
    cases hv with
    | head => exact h.1
    | tail _ hmem => exact ih h.2 hmem

theorem sentinelKeys_notMem {l : List V} (h : sentinelFreeList l = true) :
    V.sentinelKeys ∉ l := fun hmem => by
  have := sentinelFreeList_mem h hmem
  simp [V.sentinelFree] at this

theorem sentinelValues_notMem {l : List V} (h : sentinelFreeList l = true) :
    V.sentinelValues ∉ l := fun hmem => by
  have := sentinelFreeList_mem h hmem
  simp [V.sentinelFree] at this

theorem append_sep_inj {α : Type} (x : α) :
    ∀ (l1 l2 r1 r2 : List α), x ∉ l1 → x ∉ l2 →
      l1 ++ x :: r1 = l2 ++ x :: r2 → l1 = l2 ∧ r1 = r2 := by
  intro l1
  induction l1 with
  | nil =>
    intro l2 r1 r2 _ h2 heq
    cases l2 with
    | nil => exact ⟨rfl, by simpa using heq⟩
    | cons b t2 =>
      simp only [List.nil_append, List.cons_append, List.cons.injEq] at heq
      exact absurd (heq.1 ▸ List.mem_cons_self b t2) (heq.1 ▸ h2)
  | cons a t1 ih =>
    intro l2 r1 r2 h1 h2 heq
    cases l2 with
    | nil =>
      simp only [List.cons_append, List.nil_append, List.cons.injEq] at heq
      exact absurd (heq.1 ▸ List.mem_cons_self a t1) (by rw [heq.1] at h1; exact h1)
    | cons b t2 =>
      simp only [List.cons_append, List.cons.injEq] at heq
      have ht := ih t2 r1 r2 (fun hm => h1 (List.mem_cons_of_mem a hm))
        (fun hm => h2 (List.mem_cons_of_mem b hm)) heq.2
      exact ⟨by rw [heq.1, ht.1], ht.2⟩

theorem kwargs_of_parts : ∀ (k1 k2 : List (String × V)),
    k1.map (fun kv => V.str kv.1) = k2.map (fun kv => V.str kv.1) →
    k1.map (fun kv => kv.2) = k2.map (fun kv => kv.2) → k1 = k2 := by
  intro k1
  induction k1 with
  | nil =>
    intro k2 hn _
    cases k2 with
    | nil => rfl
    | cons _ _ => simp at hn
  | cons a t1 ih =>
    intro k2 hn hv
    cases k2 with
    | nil => simp at hn
    | cons b t2 =>
      simp only [List.map_cons, List.cons.injEq, V.str.injEq] at hn hv
      have ht := ih t2 hn.2 hv.2
      have hab : a = b := Prod.ext hn.1 hv.1
      rw [hab, ht]

/-- C3 counterexample: the flattened key is not injective over call
shapes. A call passing the single positional argument `("a", "b")`
and a call passing the two positional arguments `"a", "b"` — distinct
call shapes — flatten to the very same cache key, because the wrapper
collapses a one-positional-argument call to that argument itself. -/
theorem params_flat_single_tuple_collision :
    params_flat [V.tup [V.str "a", V.str "b"]] [] =
        params_flat [V.str "a", V.str "b"] [] ∧
      ([V.tup [V.str "a", V.str "b"]] : List V) ≠ [V.str "a", V.str "b"] :=
  ⟨rfl, by decide⟩

/-- C3 amended. Provided no passed argument contains the private
kwargs sentinel objects, the flattened key disambiguates positional
arguments from keyword-argument names from keyword-argument values,
and is injective over call shapes with exactly one exception: a call
passing one positional argument that is a tuple collides with the
keyword-free call whose positional arguments form that same tuple
(the single-positional space optimization flattens the former to the
bare argument). -/
theorem params_flat_inj (c1 c2 : Call)
    (h1 : c1.sentinelFree = true) (h2 : c2.sentinelFree = true)
    (heq : c1.key = c2.key) :
    c1 = c2 ∨ keyCollapse c1 c2 ∨ keyCollapse c2 c1 := by
  obtain ⟨a1, k1⟩ := c1
  obtain ⟨a2, k2⟩ := c2
  rw [Call.sentinelFree, Bool.and_eq_true] at h1 h2
  cases k1 with
  | nil =>
    cases k2 with
    | nil =>
      rcases a1 with _ | ⟨x, _ | ⟨x2, t1⟩⟩ <;>
        rcases a2 with _ | ⟨y, _ | ⟨y2, t2⟩⟩ <;>
          simp only [Call.key, params_flat] at heq
      · exact .inl rfl
      · exact .inr (.inr ⟨rfl, rfl, by rw [← heq]⟩)
      · exact .inl (by simp at heq)
      · exact .inr (.inl ⟨rfl, rfl, by rw [heq]⟩)
      · exact .inl (by rw [heq])
      · exact .inr (.inl ⟨rfl, rfl, by rw [heq]⟩)
      · exact .inl (by simp at heq)
      · exact .inr (.inr ⟨rfl, rfl, by rw [← heq]⟩)
      · exact .inl (by injection heq with h; rw [h])
    | cons kv2 kt2 =>
      exfalso
      have hmem : V.sentinelKeys ∈ a2 ++ [V.sentinelKeys] ++
          ((kv2 :: kt2).map (fun kv => V.str kv.1)) ++ [V.sentinelValues] ++
          ((kv2 :: kt2).map (fun kv => kv.2)) := by simp
      rcases a1 with _ | ⟨x, _ | ⟨x2, t1⟩⟩ <;>
        simp only [Call.key, params_flat] at heq
      · injection heq with h
        rw [← h] at hmem
        simp at hmem
      · have hx : x.sentinelFree = true :=
          sentinelFreeList_mem h1.1 (List.mem_singleton.mpr rfl)
        rw [heq] at hx
        rw [V.sentinelFree] at hx
        have := sentinelFreeList_mem hx hmem
        simp [V.sentinelFree] at this
      · injection heq with h
        rw [← h] at hmem
        exact sentinelKeys_notMem h1.1 hmem
  | cons kv1 kt1 =>
    cases k2 with
    | nil =>
      exfalso
      have hmem : V.sentinelKeys ∈ a1 ++ [V.sentinelKeys] ++
          ((kv1 :: kt1).map (fun kv => V.str kv.1)) ++ [V.sentinelValues] ++
          ((kv1 :: kt1).map (fun kv => kv.2)) := by simp
      rcases a2 with _ | ⟨y, _ | ⟨y2, t2⟩⟩ <;>
        simp only [Call.key, params_flat] at heq
      · injection heq with h
        rw [h] at hmem
        simp at hmem
      · have hy : y.sentinelFree = true :=
          sentinelFreeList_mem h2.1 (List.mem_singleton.mpr rfl)
        rw [← heq] at hy
        rw [V.sentinelFree] at hy
        have := sentinelFreeList_mem hy hmem
        simp [V.sentinelFree] at this
      · injection heq with h
        rw [h] at hmem
        exact sentinelKeys_notMem h2.1 hmem
    | cons kv2 kt2 =>
      left
      simp only [Call.key, params_flat, V.tup.injEq] at heq
      have hassoc : ∀ (a : List V) (kw : List (String × V)),
          a ++ [V.sentinelKeys] ++ (kw.map (fun kv => V.str kv.1)) ++
              [V.sentinelValues] ++ (kw.map (fun kv => kv.2)) =
            a ++ V.sentinelKeys :: ((kw.map (fun kv => V.str kv.1)) ++
              V.sentinelValues :: (kw.map (fun kv => kv.2))) := by
        intro a kw
        simp
      rw [hassoc, hassoc] at heq
      have hsk1 : V.sentinelKeys ∉ a1 := sentinelKeys_notMem h1.1
      have hsk2 : V.sentinelKeys ∉ a2 := sentinelKeys_notMem h2.1
      have hsplit1 := append_sep_inj V.sentinelKeys a1 a2 _ _ hsk1 hsk2 heq
      have hsv1 : V.sentinelValues ∉ (kv1 :: kt1).map (fun kv => V.str kv.1) := by
        simp
      have hsv2 : V.sentinelValues ∉ (kv2 :: kt2).map (fun kv => V.str kv.1) := by
        simp
      have hsplit2 := append_sep_inj V.sentinelValues _ _ _ _ hsv1 hsv2 hsplit1.2
      have hk := kwargs_of_parts (kv1 :: kt1) (kv2 :: kt2) hsplit2.1 hsplit2.2
      rw [hsplit1.1, hk]

/-- Witness for C3's amended theorem at the concrete colliding pair:
the collision is classified as the single-positional-tuple collapse,
not as equality of the two call shapes. -/
theorem params_flat_inj_witness :
    (Call.sentinelFree ⟨[V.tup [V.str "a", V.str "b"]], []⟩ = true) ∧
      (Call.key ⟨[V.tup [V.str "a", V.str "b"]], []⟩ =
        Call.key ⟨[V.str "a", V.str "b"], []⟩) ∧
      ((⟨[V.tup [V.str "a", V.str "b"]], []⟩ : Call) = ⟨[V.str "a", V.str "b"], []⟩ ∨
        keyCollapse ⟨[V.tup [V.str "a", V.str "b"]], []⟩ ⟨[V.str "a", V.str "b"], []⟩ ∨
        keyCollapse ⟨[V.str "a", V.str "b"], []⟩ ⟨[V.tup [V.str "a", V.str "b"]], []⟩) :=
  ⟨rfl, rfl,
    params_flat_inj ⟨[V.tup [V.str "a", V.str "b"]], []⟩
      ⟨[V.str "a", V.str "b"], []⟩ rfl rfl rfl⟩

/-! ## Wrapper scope registry (`_codescope.py`)

Runtime objects carry explicit object ids so that Python's
identity-based behaviours (`id()`-derived scope names, distinct tuple
objects with value-equal contents, in-place set mutation) are
observable in the embedding. The process-wide `bear_typistry`
dictionary and the id allocator are threaded as explicit state. -/

/-- Runtime class object: `cid` is its object id, `basename` its
unqualified name, `builtin` embeds `is_type_builtin`, and
`instanceable` embeds passing `die_unless_type_isinstanceable`. -/
structure Cls : Type where
  cid : Nat
  basename : String
  builtin : Bool
  instanceable : Bool
deriving DecidableEq, Repr

/-- Tuple-of-classes object: `tid` is the tuple's object id, distinct
for distinct tuple objects even when their contents are value-equal. -/
structure TupleObj : Type where
  tid : Nat
  elems : List Cls
deriving DecidableEq, Repr

/-- Runtime object bindable into a wrapper scope: a class, a tuple of
classes, or the process-wide beartypistry singleton. -/
inductive Obj : Type where
  | cls (c : Cls)
  | tup (t : TupleObj)
  | typistry
deriving DecidableEq, Repr

/-- Object id as `id()` would report it; the typistry singleton has a
fixed id of its own. -/
def Obj.objId : Obj → Nat
  | .cls c => c.cid
  | .tup t => t.tid
  | .typistry => 0

/-- Exceptions raised by the registry and the compiler. -/
inductive BErr : Type where
  | pep3119 (msg : String)
  | nonpep (msg : String)
  | utilCallable (msg : String)
  | decorHintPep (msg : String)
  | assertFailed (msg : String)
deriving DecidableEq, Repr

/-- Decidable equality on `Except` results, for concrete witness
evaluation. -/
instance {e a : Type} [DecidableEq e] [DecidableEq a] : DecidableEq (Except e a)
  | .ok x, .ok y =>
    if h : x = y then isTrue (by rw [h]) else
      isFalse (fun hh => h (by injection hh))
  | .error x, .error y =>
    if h : x = y then isTrue (by rw [h]) else
      isFalse (fun hh => h (by injection hh))
  | .ok _, .error _ => isFalse (fun hh => by injection hh)
  | .error _, .ok _ => isFalse (fun hh => by injection hh)

/-- Process-wide shared state: the `bear_typistry` bindings of
interned class tuples plus a fresh-object-id allocator standing in
for the Python heap allocator. -/
structure Typistry : Type where
  entries : List (String × TupleObj)
  nextId : Nat
deriving DecidableEq, Repr

/-- Modelled from the spec: `add_func_scope_attr` lives in
`beartype._util.func.utilfuncscope`, which is absent from `src/`. Per
spec 4.2 and the unit test `test_add_func_scope_attr`, it registers
the object under a name derived from its object id (the test asserts
`str(id(attr)) in attr_name`), returns the existing name unchanged
when the identical object is already registered under it, and raises
a private `_BeartypeUtilCallableException` when the generated name is
already bound to a different object. -/
def add_func_scope_attr (attr : Obj) (func_scope : List (String × Obj)) :
    Except BErr (String × List (String × Obj)) :=
  let attr_name := "__beartype_object_" ++ toString attr.objId
  match alookup func_scope attr_name with
  | some old =>
    if old = attr then .ok (attr_name, func_scope)
    else .error (.utilCallable attr_name)
  | none => .ok (attr_name, (attr_name, attr) :: func_scope)

/-- Registration of a single class into a wrapper scope
(`add_func_scope_type`): validate the class is isinstanceable, then
return a builtin's bare basename without touching the scope, else
register the class itself by object id. -/
def add_func_scope_type (cls : Cls) (func_scope : List (String × Obj)) :
    Except BErr (String × List (String × Obj)) :=
  if cls.instanceable = false then .error (.pep3119 cls.basename)
  else if cls.builtin then .ok (cls.basename, func_scope)
  else add_func_scope_attr (.cls cls) func_scope

/-- Collection accepted by `add_func_scope_types`: a frozenset of
classes (carried in its iteration order, duplicate-free as Python
sets are) or a tuple object. -/
inductive SetOrTuple : Type where
  | set (elems : List Cls)
  | tup (t : TupleObj)
deriving DecidableEq, Repr

/-- Member classes of the collection, in iteration order. -/
def SetOrTuple.elems : SetOrTuple → List Cls
  | .set l => l
  | .tup t => t.elems

/-- Magic substring prefixing beartypistry keys of interned tuples
(`TYPISTRY_HINT_NAME_TUPLE_PREFIX`; fully-qualified classnames never
contain it, preventing key collisions between tuples and types). -/
def TYPISTRY_TUPLE_KEY_PRE : String := "+"

/-- Registration of a tuple of classes (`add_func_scope_types`).
`hashT` embeds Python's `hash` on a tuple of classes (a function of
the element sequence only, so value-equal tuples hash alike) and
`canon` embeds `tuple(set(...))` — deduplication into an unspecified
but fixed iteration order. After the emptiness and isinstanceability
validations a one-member collection delegates to
`add_func_scope_type`; otherwise the collection is canonicalized to a
(freshly allocated, unless `is_unique` on a tuple) tuple object, the
beartypistry is consulted under the key built from the canonical
tuple's hash — reusing the previously interned tuple object on a hit,
interning the new one on a miss — and the surviving tuple object is
registered into the scope by object id. -/
def add_func_scope_types (hashT : List Cls → Int) (canon : List Cls → List Cls)
    (types : SetOrTuple) (func_scope : List (String × Obj)) (ts : Typistry)
    (is_unique : Bool) :
    Except BErr (String × List (String × Obj) × Typistry) :=
  match types.elems with
  | [] => .error (.nonpep "empty")
  | c :: rest =>
    if ((c :: rest).all fun x => x.instanceable) = false then
      .error (.nonpep "not isinstanceable")
    else if rest.isEmpty then
      match add_func_scope_type c func_scope with
      | .ok p => .ok (p.1, p.2, ts)
      | .error e => .error e
    else
      let alloc : TupleObj × Typistry :=
        match types with
        | .set l => (⟨ts.nextId, l⟩, ⟨ts.entries, ts.nextId + 1⟩)
        | .tup t =>
          if is_unique then (t, ts)
          else (⟨ts.nextId, canon t.elems⟩, ⟨ts.entries, ts.nextId + 1⟩)
      let keyName := TYPISTRY_TUPLE_KEY_PRE ++ toString (hashT alloc.1.elems)
      match alookup alloc.2.entries keyName with
      | none =>
        match add_func_scope_attr (.tup alloc.1) func_scope with
        | .ok p =>
          .ok (p.1, p.2, ⟨(keyName, alloc.1) :: alloc.2.entries, alloc.2.nextId⟩)
        | .error e => .error e
      | some cached =>
        match add_func_scope_attr (.tup cached) func_scope with
        | .ok p => .ok (p.1, p.2, alloc.2)
        | .error e => .error e

theorem add_func_scope_attr_binds {attr : Obj} {scope : List (String × Obj)}
    {n : String} {sc' : List (String × Obj)}
    (h : add_func_scope_attr attr scope = .ok (n, sc')) :
    n = "__beartype_object_" ++ toString attr.objId ∧
      alookup sc' n = some attr := by
  rcases hl : alookup scope ("__beartype_object_" ++ toString attr.objId) with
    _ | old
  · simp only [add_func_scope_attr, hl] at h
    injection h with h
    injection h with hn hsc
    subst hn
    subst hsc
    exact ⟨rfl, alookup_cons_self _ _ _⟩
  · simp only [add_func_scope_attr, hl] at h
    by_cases hold : old = attr
    · subst hold
      simp only [if_pos rfl] at h
      injection h with h
      injection h with hn hsc
      subst hn
      subst hsc
      exact ⟨rfl, hl⟩
    · simp [hold] at h

theorem add_func_scope_attr_idem {attr : Obj} {scope : List (String × Obj)}
    (h : alookup scope ("__beartype_object_" ++ toString attr.objId) =
      some attr) :
    add_func_scope_attr attr scope =
      .ok ("__beartype_object_" ++ toString attr.objId, scope) := by
  simp [add_func_scope_attr, h]

/-- C6. Registering a globally resolvable builtin (isinstanceable)
class with `add_func_scope_type` returns the class's unqualified
basename and leaves the scope completely unchanged: no binding is
added. -/
theorem add_func_scope_type_builtin (c : Cls) (scope : List (String × Obj))
    (hb : c.builtin = true) (hi : c.instanceable = true) :
    add_func_scope_type c scope = .ok (c.basename, scope) := by
  simp [add_func_scope_type, hb, hi]

/-- Witness for C6 at a concrete builtin class. -/
theorem add_func_scope_type_builtin_witness :
    add_func_scope_type ⟨3, "int", true, true⟩ [] = .ok ("int", []) :=
  add_func_scope_type_builtin ⟨3, "int", true, true⟩ [] rfl rfl

/-- C5. Registering two value-equal tuple objects of two or more
isinstanceable classes against the same scope yields the same name
both times; that name is bound in the scope to a single shared tuple
object which is interned in the process-wide typistry under the key
derived from the canonical tuple's hash (the second call merely
allocates and discards its own canonicalized tuple, bumping the
allocator). Likewise, `add_func_scope_type` returns the same name
when the same class is registered twice. -/
theorem add_func_scope_types_dedup
    (hashT : List Cls → Int) (canon : List Cls → List Cls)
    (t1 t2 : TupleObj) (c : Cls)
    (scope : List (String × Obj)) (ts : Typistry)
    (n1 : String) (sc1 : List (String × Obj)) (ts1 : Typistry)
    (helems : t2.elems = t1.elems) (hlen : 2 ≤ t1.elems.length)
    (hcall1 : add_func_scope_types hashT canon (.tup t1) scope ts false =
      .ok (n1, sc1, ts1)) :
    (add_func_scope_types hashT canon (.tup t2) sc1 ts1 false =
        .ok (n1, sc1, ⟨ts1.entries, ts1.nextId + 1⟩) ∧
      ∃ T : TupleObj,
        alookup sc1 n1 = some (.tup T) ∧
          alookup ts1.entries
              (TYPISTRY_TUPLE_KEY_PRE ++ toString (hashT (canon t1.elems))) =
            some T) ∧
    (∀ n sc', add_func_scope_type c scope = .ok (n, sc') →
      add_func_scope_type c sc' = .ok (n, sc')) := by
  constructor
  · obtain ⟨tid1, e1⟩ := t1
    obtain ⟨tid2, e2⟩ := t2
    dsimp only [TupleObj.elems] at helems hlen hcall1 ⊢
    subst helems
    rcases e2 with _ | ⟨x, _ | ⟨y, r⟩⟩
    · simp at hlen
    · simp at hlen
    by_cases hval : ((x :: y :: r).all fun z => z.instanceable) = false
    · simp [add_func_scope_types, SetOrTuple.elems, hval] at hcall1
    rcases hlook : alookup ts.entries
        (TYPISTRY_TUPLE_KEY_PRE ++ toString (hashT (canon (x :: y :: r)))) with
      _ | cached
    · rcases hattr : add_func_scope_attr
          (.tup ⟨ts.nextId, canon (x :: y :: r)⟩) scope with herr | ⟨pn, psc⟩
      · simp [add_func_scope_types, SetOrTuple.elems, hval, hlook, hattr]
          at hcall1
      · simp [add_func_scope_types, SetOrTuple.elems, hval, hlook, hattr]
          at hcall1
        obtain ⟨hn1, hsc1, hts1⟩ := hcall1
        subst hn1
        subst hsc1
        subst hts1
        obtain ⟨hname, hbind⟩ := add_func_scope_attr_binds hattr
        subst hname
        dsimp only [Obj.objId] at hbind
        constructor
        · simp [add_func_scope_types, SetOrTuple.elems, hval,
            alookup_cons_self, add_func_scope_attr, Obj.objId, hbind]
        · exact ⟨⟨ts.nextId, canon (x :: y :: r)⟩, hbind,
            alookup_cons_self _ _ _⟩
    · rcases hattr : add_func_scope_attr (.tup cached) scope with herr | ⟨pn, psc⟩
      · simp [add_func_scope_types, SetOrTuple.elems, hval, hlook, hattr]
          at hcall1
      · simp [add_func_scope_types, SetOrTuple.elems, hval, hlook, hattr]
          at hcall1
        obtain ⟨hn1, hsc1, hts1⟩ := hcall1
        subst hn1
        subst hsc1
        subst hts1
        obtain ⟨hname, hbind⟩ := add_func_scope_attr_binds hattr
        subst hname
        dsimp only [Obj.objId] at hbind
        constructor
        · simp [add_func_scope_types, SetOrTuple.elems, hval, hlook,
            add_func_scope_attr, Obj.objId, hbind]
        · exact ⟨cached, hbind, hlook⟩
  · intro n sc' h
    by_cases hi : c.instanceable = false
    · simp [add_func_scope_type, hi] at h
    · by_cases hb : c.builtin
      · simp only [add_func_scope_type, hi, if_false, hb, if_true] at h ⊢
        injection h with h
        injection h with hn hsc
        rw [← hn, ← hsc]
        simp
      · simp only [add_func_scope_type, hi, if_false, hb] at h ⊢
        obtain ⟨hn, hbind⟩ := add_func_scope_attr_binds h
        subst hn
        exact add_func_scope_attr_idem hbind

/-- Concrete non-builtin isinstanceable class for witnesses. -/
def clsA : Cls := ⟨10, "A", false, true⟩

/-- Concrete non-builtin isinstanceable class for witnesses. -/
def clsB : Cls := ⟨11, "B", false, true⟩

/-- Concrete non-builtin isinstanceable class for witnesses. -/
def clsN : Cls := ⟨12, "N", false, true⟩

/-- Scope state after the first tuple registration in the C5 witness. -/
def sc1ex : List (String × Obj) :=
  [("__beartype_object_200", .tup ⟨200, [clsA, clsB]⟩)]

/-- Typistry state after the first tuple registration in the C5
witness. -/
def ts1ex : Typistry := ⟨[("+7", ⟨200, [clsA, clsB]⟩)], 201⟩

/-- Witness for C5 at two concrete value-equal tuple objects with
distinct ids: the second registration returns the same name bound to
the shared interned tuple, and re-registering a class reuses its
name. -/
theorem add_func_scope_types_dedup_witness :
    (add_func_scope_types (fun _ => (7 : Int)) (fun l => l)
        (.tup ⟨101, [clsA, clsB]⟩) sc1ex ts1ex false =
          .ok ("__beartype_object_200", sc1ex, ⟨ts1ex.entries, ts1ex.nextId + 1⟩) ∧
      ∃ T : TupleObj,
        alookup sc1ex "__beartype_object_200" = some (.tup T) ∧
          alookup ts1ex.entries
              (TYPISTRY_TUPLE_KEY_PRE ++
                toString ((fun _ => (7 : Int))
                  ((fun l => l) (TupleObj.elems ⟨100, [clsA, clsB]⟩)))) =
            some T) ∧
    add_func_scope_type clsN [("__beartype_object_12", .cls clsN)] =
      .ok ("__beartype_object_12", [("__beartype_object_12", .cls clsN)]) :=
  have h := add_func_scope_types_dedup (fun _ => (7 : Int)) (fun l => l)
    ⟨100, [clsA, clsB]⟩ ⟨101, [clsA, clsB]⟩ clsN [] ⟨[], 200⟩
    "__beartype_object_200" sc1ex ts1ex rfl (by decide) (by decide)
  ⟨h.1, h.2 "__beartype_object_12" [("__beartype_object_12", .cls clsN)]
    (by decide)⟩

/-- C10. The typistry lookup in `add_func_scope_types` identifies
interned tuples solely by the hash-derived key and never compares
tuple contents: whenever an entry `T` already exists under the key
built from the canonical tuple's hash, the freshly canonicalized
tuple is discarded (only the id allocator advances) and the returned
name is bound to the previously cached tuple `T` — with no hypothesis
whatsoever relating `T.elems` to the passed tuple's elements, so
hash-colliding unequal tuples are conflated to whichever was
registered first. -/
theorem add_func_scope_types_hash_conflates
    (hashT : List Cls → Int) (canon : List Cls → List Cls) (t : TupleObj)
    (scope : List (String × Obj)) (ts : Typistry) (T : TupleObj)
    (hlen : 2 ≤ t.elems.length)
    (hval : (t.elems.all fun z => z.instanceable) = true)
    (hcached : alookup ts.entries
        (TYPISTRY_TUPLE_KEY_PRE ++ toString (hashT (canon t.elems))) = some T)
    (hfresh : alookup scope ("__beartype_object_" ++ toString T.tid) = none) :
    add_func_scope_types hashT canon (.tup t) scope ts false =
      .ok ("__beartype_object_" ++ toString T.tid,
        ("__beartype_object_" ++ toString T.tid, Obj.tup T) :: scope,
        ⟨ts.entries, ts.nextId + 1⟩) := by
  obtain ⟨tid, e⟩ := t
  dsimp only [TupleObj.elems] at hlen hval hcached ⊢
  rcases e with _ | ⟨x, _ | ⟨y, r⟩⟩
  · simp at hlen
  · simp at hlen
  simp [add_func_scope_types, SetOrTuple.elems, hval, hcached,
    add_func_scope_attr, Obj.objId, hfresh]

/-- Witness for C10 at a concrete hash collision: the cached tuple
`⟨99, [C]⟩` is not value-equal to the passed tuple's classes
`[A, B]`, yet the registration binds the cached tuple. -/
theorem add_func_scope_types_hash_conflates_witness :
    (TupleObj.elems ⟨99, [⟨13, "C", false, true⟩]⟩ ≠
        TupleObj.elems ⟨300, [clsA, clsB]⟩) ∧
      add_func_scope_types (fun _ => (7 : Int)) (fun l => l)
          (.tup ⟨300, [clsA, clsB]⟩) [] ⟨[("+7", ⟨99, [⟨13, "C", false, true⟩]⟩)], 400⟩
          false =
        .ok ("__beartype_object_99",
          [("__beartype_object_99", Obj.tup ⟨99, [⟨13, "C", false, true⟩]⟩)],
          ⟨[("+7", ⟨99, [⟨13, "C", false, true⟩]⟩)], 401⟩) :=
  ⟨by decide,
    add_func_scope_types_hash_conflates (fun _ => (7 : Int)) (fun l => l)
      ⟨300, [clsA, clsB]⟩ [] ⟨[("+7", ⟨99, [⟨13, "C", false, true⟩]⟩)], 400⟩
      ⟨99, [⟨13, "C", false, true⟩]⟩ (by decide) (by decide) (by decide)
      (by decide)⟩

/-! ## Forward-reference expression (`express_func_scope_type_forwardref`)

Relative-forward-reference sets are Python `set` objects mutated in
place; they carry an object id (`sid`) so aliasing is observable. The
reference itself is embedded as its classname string —
`get_hint_pep484585_ref_name` applied to an already-validated
reference; `die_unless_hint_pep484585_ref`, which lives outside
`src/`, only rejects objects that are not references at all, and is
therefore the identity on this representation. -/

/-- Name under which the beartypistry singleton is bound into wrapper
scopes (`beartype._check.checkmagic.ARG_NAME_TYPISTRY`). -/
def ARG_NAME_TYPISTRY : String := "__beartypistry"

/-- Modelled from the spec: `get_hint_forwardref_code` lives in
`beartype._check.forward.fwdtype`, absent from `src/`; per spec 4.2 it
returns the expression looking the class up in the process-wide
symbol table by qualified name. -/
def get_hint_forwardref_code (classname : String) : String :=
  ARG_NAME_TYPISTRY ++ "[" ++ classname ++ "]"

/-- Modelled from the spec: opening marker of the placeholder
expression for an unqualified forward reference
(`CODE_HINT_REF_TYPE_BASENAME_PLACEHOLDER_PREFIX`, defined outside
`src/`); spec 4.2 only requires a recognizable placeholder to be
resolved later by the caller. -/
def REF_PLACEHOLDER_OPEN : String := "$%REF."

/-- Modelled from the spec: closing marker of the placeholder
expression for an unqualified forward reference. -/
def REF_PLACEHOLDER_CLOSE : String := "/~"

/-- Python `set` object of relative forward-reference basenames:
`sid` is its object id. -/
structure SetObj : Type where
  sid : Nat
  elems : List String
deriving DecidableEq, Repr

/-- Python `set.add` performed in place: the same object (same
`sid`), with the element added when absent. -/
def SetObj.add (s : SetObj) (x : String) : SetObj :=
  ⟨s.sid, if x ∈ s.elems then s.elems else s.elems ++ [x]⟩

/-- Forward-reference expression generation
(`express_func_scope_type_forwardref`): a qualified classname (one
containing a `.`) binds the beartypistry singleton into the scope
under `ARG_NAME_TYPISTRY` and yields a typistry-lookup expression,
passing the relative-name set through untouched; an unqualified
classname yields a placeholder expression and adds the basename to
the relative-name set, creating the set first when `none` was passed
(allocating a fresh object id). -/
def express_func_scope_type_forwardref (forwardref : String)
    (forwardrefs_class_basename : Option SetObj)
    (func_scope : List (String × Obj)) (ts : Typistry) :
    (String × Option SetObj) × List (String × Obj) × Typistry :=
  if forwardref.data.contains '.' then
    ((get_hint_forwardref_code forwardref, forwardrefs_class_basename),
      aset func_scope ARG_NAME_TYPISTRY Obj.typistry, ts)
  else
    match forwardrefs_class_basename with
    | some s =>
      ((REF_PLACEHOLDER_OPEN ++ forwardref ++ REF_PLACEHOLDER_CLOSE,
        some (s.add forwardref)), func_scope, ts)
    | none =>
      ((REF_PLACEHOLDER_OPEN ++ forwardref ++ REF_PLACEHOLDER_CLOSE,
        some ⟨ts.nextId, [forwardref]⟩), func_scope,
        ⟨ts.entries, ts.nextId + 1⟩)

theorem alookup_aset_self {κ β : Type} [DecidableEq κ]
    (m : List (κ × β)) (k : κ) (v : β) : alookup (aset m k v) k = some v := by
  induction m with
  | nil => simp [aset, alookup]
  | cons p rest ih =>
    obtain ⟨k0, v0⟩ := p
    by_cases hk : k0 = k
    · subst hk
      simp [aset, alookup]
    · simp [aset, alookup, hk, ih]

/-- C7. For every forward reference: when the classname is qualified
(contains a `.`), the function binds the process-wide typistry into
the scope under `ARG_NAME_TYPISTRY`, returns the typistry-lookup
expression for the qualified name, and passes the relative-name set
through unchanged; when the classname is unqualified, it returns the
placeholder expression together with the passed set augmented by the
classname — or a freshly created set holding just the classname when
`none` was passed. -/
theorem express_func_scope_type_forwardref_spec (name : String)
    (refs : Option SetObj) (scope : List (String × Obj)) (ts : Typistry) :
    (name.data.contains '.' = true →
      express_func_scope_type_forwardref name refs scope ts =
          ((get_hint_forwardref_code name, refs),
            aset scope ARG_NAME_TYPISTRY Obj.typistry, ts) ∧
        alookup (aset scope ARG_NAME_TYPISTRY Obj.typistry) ARG_NAME_TYPISTRY =
          some Obj.typistry) ∧
    (name.data.contains '.' = false →
      match refs with
      | some s =>
        express_func_scope_type_forwardref name refs scope ts =
            ((REF_PLACEHOLDER_OPEN ++ name ++ REF_PLACEHOLDER_CLOSE,
              some (s.add name)), scope, ts) ∧
          name ∈ (s.add name).elems
      | none =>
        express_func_scope_type_forwardref name refs scope ts =
          ((REF_PLACEHOLDER_OPEN ++ name ++ REF_PLACEHOLDER_CLOSE,
            some ⟨ts.nextId, [name]⟩), scope, ⟨ts.entries, ts.nextId + 1⟩)) := by
  constructor
  · intro hdot
    constructor
    · unfold express_func_scope_type_forwardref
      rw [hdot]
      rfl
    · exact alookup_aset_self scope ARG_NAME_TYPISTRY Obj.typistry
  · intro hdot
    cases refs with
    | some s =>
      constructor
      · unfold express_func_scope_type_forwardref
        rw [hdot]
        rfl
      · by_cases hmem : name ∈ s.elems
        · simp [SetObj.add, hmem]
        · simp [SetObj.add, hmem]
    | none =>
      unfold express_func_scope_type_forwardref
      rw [hdot]
      rfl

/-- Witness for C7 at a qualified reference `"a.b"` and an
unqualified reference `"c"` with no pre-existing set. -/
theorem express_func_scope_type_forwardref_spec_witness :
    (express_func_scope_type_forwardref "a.b" none [] ⟨[], 5⟩ =
        ((get_hint_forwardref_code "a.b", none),
          aset [] ARG_NAME_TYPISTRY Obj.typistry, ⟨[], 5⟩) ∧
      alookup (aset ([] : List (String × Obj)) ARG_NAME_TYPISTRY Obj.typistry)
          ARG_NAME_TYPISTRY =
        some Obj.typistry) ∧
    express_func_scope_type_forwardref "c" none [] ⟨[], 5⟩ =
      ((REF_PLACEHOLDER_OPEN ++ "c" ++ REF_PLACEHOLDER_CLOSE,
        some ⟨(5 : Nat), ["c"]⟩), [], ⟨[], 5 + 1⟩) :=
  ⟨(express_func_scope_type_forwardref_spec "a.b" none [] ⟨[], 5⟩).1 (by decide),
    (express_func_scope_type_forwardref_spec "c" none [] ⟨[], 5⟩).2 (by decide)⟩

/-- C9. Passing a non-`None` relative-name set together with an
unqualified forward reference mutates that very set in place and
returns the identical set object, not a copy: the returned set keeps
the passed set's object id (`sid`), with the basename added to its
elements, so the caller's set is aliased by the returned value. -/
theorem express_func_scope_type_forwardref_aliases (name : String)
    (s : SetObj) (scope : List (String × Obj)) (ts : Typistry)
    (hdot : name.data.contains '.' = false) :
    express_func_scope_type_forwardref name (some s) scope ts =
        ((REF_PLACEHOLDER_OPEN ++ name ++ REF_PLACEHOLDER_CLOSE,
          some ⟨s.sid, if name ∈ s.elems then s.elems else s.elems ++ [name]⟩),
          scope, ts) := by
  unfold express_func_scope_type_forwardref
  rw [hdot]
  rfl

/-- Witness for C9: the set object with id 41 is returned with the
same id and the basename appended. -/
theorem express_func_scope_type_forwardref_aliases_witness :
    express_func_scope_type_forwardref "c" (some ⟨41, ["d"]⟩) [] ⟨[], 5⟩ =
      ((REF_PLACEHOLDER_OPEN ++ "c" ++ REF_PLACEHOLDER_CLOSE,
        some ⟨(41 : Nat), if "c" ∈ ["d"] then ["d"] else ["d"] ++ ["c"]⟩),
        [], ⟨[], 5⟩) :=
  express_func_scope_type_forwardref_aliases "c" ⟨41, ["d"]⟩ [] ⟨[], 5⟩
    (by decide)

/-! ## Breadth-first PEP code compiler (`_pephint.py`)

`pep_code_check_hint` drains a breadth-first work queue of hint
metadata, splicing per-hint code fragments into the output program by
placeholder substitution. The fixed work-queue capacity `SIZE_BIG`
and the Python-set iteration orders are not determined by `src/`:
capacity is a parameter `cap`, and `enumC`/`enumH` are oracles giving
the iteration order of the nonpep-children and pep-children sets
(constrained to permutations in the theorems, as CPython guarantees
no more). `hashT` embeds Python `hash` on tuples of classes. -/

/-- PEP type hints in the grammar supported by `pep_code_check_hint`:
members of `HINTS_IGNORABLE` (e.g. `Any`), PEP-noncompliant classes,
unions, standard sequences (with their isinstanceable origin class),
and every other supported argumentless `typing` attribute with an
origin class (the fallback branch). -/
inductive Hint : Type where
  | ign
  | cls (c : Cls)
  | union (children : List Hint)
  | seqStd (origin : Cls) (child : Hint)
  | other (origin : Cls)

mutual

/-- Boolean value equality on hints. -/
def Hint.beq : Hint → Hint → Bool
  | .ign, .ign => true
  | .cls a, .cls b => a == b
  | .union a, .union b => beqListHint a b
  | .seqStd o1 c1, .seqStd o2 c2 => o1 == o2 && Hint.beq c1 c2
  | .other a, .other b => a == b
  | _, _ => false

/-- Pointwise `Hint.beq` on lists. -/
def beqListHint : List Hint → List Hint → Bool
  | [], [] => true
  | a :: as, b :: bs => Hint.beq a b && beqListHint as bs
  | _, _ => false

end

mutual

theorem eqHint_of_beq : (a b : Hint) → Hint.beq a b = true → a = b
  | .ign, .ign, _ => rfl
  | .cls a, .cls b, h => by
    have hab : a = b := by simpa [Hint.beq] using h
    rw [hab]
  | .union a, .union b, h => by
    have hab : a = b := eqListHint_of_beq a b (by simpa [Hint.beq] using h)
    rw [hab]
  | .seqStd o1 c1, .seqStd o2 c2, h => by
    have hsplit : o1 = o2 ∧ Hint.beq c1 c2 = true := by
      simpa [Hint.beq, Bool.and_eq_true] using h
    have hc := eqHint_of_beq c1 c2 hsplit.2
    rw [hsplit.1, hc]
  | .other a, .other b, h => by
    have hab : a = b := by simpa [Hint.beq] using h
    rw [hab]
  | .ign, .cls _, h => by simp [Hint.beq] at h
  | .ign, .union _, h => by simp [Hint.beq] at h
  | .ign, .seqStd _ _, h => by simp [Hint.beq] at h
  | .ign, .other _, h => by simp [Hint.beq] at h
  | .cls _, .ign, h => by simp [Hint.beq] at h
  | .cls _, .union _, h => by simp [Hint.beq] at h
  | .cls _, .seqStd _ _, h => by simp [Hint.beq] at h
  | .cls _, .other _, h => by simp [Hint.beq] at h
  | .union _, .ign, h => by simp [Hint.beq] at h
  | .union _, .cls _, h => by simp [Hint.beq] at h
  | .union _, .seqStd _ _, h => by simp [Hint.beq] at h
  | .union _, .other _, h => by simp [Hint.beq] at h
  | .seqStd _ _, .ign, h => by simp [Hint.beq] at h
  | .seqStd _ _, .cls _, h => by simp [Hint.beq] at h
  | .seqStd _ _, .union _, h => by simp [Hint.beq] at h
  | .seqStd _ _, .other _, h => by simp [Hint.beq] at h
  | .other _, .ign, h => by simp [Hint.beq] at h
  | .other _, .cls _, h => by simp [Hint.beq] at h
  | .other _, .union _, h => by simp [Hint.beq] at h
  | .other _, .seqStd _ _, h => by simp [Hint.beq] at h

theorem eqListHint_of_beq : (a b : List Hint) → beqListHint a b = true → a = b
  | [], [], _ => rfl
  | a :: as, b :: bs, h => by
    have hsplit : Hint.beq a b = true ∧ beqListHint as bs = true := by
      simpa [beqListHint, Bool.and_eq_true] using h
    have h1 := eqHint_of_beq a b hsplit.1
    have h2 := eqListHint_of_beq as bs hsplit.2
    rw [h1, h2]
  | [], _ :: _, h => by simp [beqListHint] at h
  | _ :: _, [], h => by simp [beqListHint] at h

end

mutual

theorem beqHint_refl : (a : Hint) → Hint.beq a a = true
  | .ign => rfl
  | .cls c => by simp [Hint.beq]
  | .union cs => by simpa [Hint.beq] using beqListHint_refl cs
  | .seqStd o c => by
    simp only [Hint.beq, Bool.and_eq_true]
    exact ⟨by simp, beqHint_refl c⟩
  | .other o => by simp [Hint.beq]

theorem beqListHint_refl : (l : List Hint) → beqListHint l l = true
  | [] => rfl
  | h :: rest => by
    simp only [beqListHint, Bool.and_eq_true]
    exact ⟨beqHint_refl h, beqListHint_refl rest⟩

end

instance : DecidableEq Hint := fun a b =>
  if h : Hint.beq a b = true then isTrue (eqHint_of_beq a b h)
  else isFalse (fun hab => h (hab ▸ beqHint_refl a))

/-- Origin type of the argumentless `typing` attribute of a
PEP-compliant hint, if any (`get_hint_type_origin_or_none` composed
with `get_hint_pep_typing_attr`): unions have none. -/
def get_hint_type_origin_or_none : Hint → Option Cls
  | .seqStd o _ => some o
  | .other o => some o
  | _ => none

/-- Python `set.add`: insert if absent (the list records insertion
order; iteration order is supplied separately by an oracle). -/
def pyAdd {α : Type} [DecidableEq α] (s : List α) (x : α) : List α :=
  if x ∈ s then s else s ++ [x]

/-- Prefiltering loop of the union branch: each unignorable child is
added to the PEP-children set if PEP-compliant (also adding its
origin type, when it has one, to the nonpep set — the shallow-test
optimization), else to the nonpep set. -/
def unionPartitionAux : List Hint → List Cls → List Hint → List Cls × List Hint
  | [], np, pp => (np, pp)
  | h :: rest, np, pp =>
    match h with
    | .ign => unionPartitionAux rest np pp
    | .cls c => unionPartitionAux rest (pyAdd np c) pp
    | .union cs => unionPartitionAux rest np (pyAdd pp (.union cs))
    | .seqStd o c =>
      unionPartitionAux rest (pyAdd np o) (pyAdd pp (.seqStd o c))
    | .other o => unionPartitionAux rest (pyAdd np o) (pyAdd pp (.other o))

/-- Partition of a union's subscripted arguments into the
`hint_childs_nonpep` and `hint_childs_pep` sets, in discovery order. -/
def unionPartition (cs : List Hint) : List Cls × List Hint :=
  unionPartitionAux cs [] []

/-- Modelled from the spec: `register_typistry_type` lives in
`beartype._decor._typistry`, absent from `src/`; it returns the
expression resolving the class through the beartypistry. -/
def register_typistry_type (c : Cls) : String :=
  "__beartypistry[" ++ c.basename ++ "]"

/-- Modelled from the spec: `register_typistry_tuple` (also from
`beartype._decor._typistry`) interns the tuple under its content hash
and returns the expression resolving it through the beartypistry; the
union branch passes `is_types_unique=True`, so no deduplication
happens here. -/
def register_typistry_tuple (hashT : List Cls → Int) (types : List Cls) :
    String :=
  "__beartypistry[+" ++ toString (hashT types) ++ "]"

/-- Modelled from the spec: one indentation level (`CODE_INDENT_1`,
defined outside `src/`). -/
def CODE_INDENT_1 : String := "    "

/-- Modelled from the spec: two indentation levels, the root hint's
indentation. -/
def CODE_INDENT_2 : String := "        "

/-- Modelled from the spec: the root pith expression
(`PEP_CODE_PITH_ROOT_EXPR`); the docstring of `_pephint.py` shows it
as `__beartype_pith_root`. -/
def PEP_CODE_PITH_ROOT_EXPR : String := "__beartype_pith_root"

/-- Placeholder minted by `get_next_pep_hint_placeholder`; the
docstring of `_pephint.py` shows consecutive placeholders of this
shape. -/
def placeholder (n : Nat) : String := "@" ++ toString n ++ "!"

/-- Modelled from the spec: the root code template
(`PEP_CODE_CHECK_HINT_ROOT`), one placeholder for the root hint and
one deferred pith-name placeholder for the external decorator layer. -/
def PEP_CODE_CHECK_HINT_ROOT (ph : String) : String :=
  "if not " ++ ph ++ ": raise($%PITH_ROOT_NAME/~)"

/-- Modelled from the spec: the shallow instance-of test snippet
(`PEP_CODE_CHECK_HINT_NONPEP_TYPE`). -/
def PEP_CODE_CHECK_HINT_NONPEP_TYPE (pith expr : String) : String :=
  "isinstance(" ++ pith ++ ", " ++ expr ++ ")"

/-- Modelled from the spec: the standard-sequence snippet
(`PEP_CODE_CHECK_HINT_SEQUENCE_STANDARD`): shallow origin test
short-circuited with the enqueued member check. -/
def PEP_CODE_CHECK_HINT_SEQUENCE_STANDARD (pith expr ph : String) : String :=
  "(isinstance(" ++ pith ++ ", " ++ expr ++ ") and " ++ ph ++ ")"

/-- Modelled from the spec: the randomly indexed member pith
(`PEP_CODE_CHECK_HINT_SEQUENCE_STANDARD_PITH_CHILD_EXPR`). -/
def PEP_CODE_CHECK_HINT_SEQUENCE_STANDARD_PITH_CHILD_EXPR (pith : String) :
    String :=
  pith ++ "[__beartype_random_int % len(" ++ pith ++ ")]"

/-- Modelled from the spec: the union code prefix
(`PEP_CODE_CHECK_HINT_UNION_PREFIX` of `_pepsnip.py`, absent from
`src/`). Spec 4.3 states that a union whose children are all
universally satisfied contributes no code at all, and the union
branch of `_pephint.py` replaces the node's placeholder with exactly
this prefix in that case — so the prefix is the empty contribution. -/
def PEP_CODE_CHECK_HINT_UNION_PRE : String := ""

/-- Modelled from the spec: the union code suffix appended when at
least one child contributed (kept empty, matching the empty prefix). -/
def PEP_CODE_CHECK_HINT_UNION_POST : String := ""

/-- Modelled from the spec: per-nonpep-children disjunct
(`PEP_CODE_CHECK_HINT_UNION_ARG_NONPEP`): a single instance-of test
against the merged tuple, with the trailing ` or` stripped from the
last disjunct by the munge step. -/
def PEP_CODE_CHECK_HINT_UNION_ARG_NONPEP (pith expr : String) : String :=
  "isinstance(" ++ pith ++ ", " ++ expr ++ ") or"

/-- Modelled from the spec: per-pep-child disjunct
(`PEP_CODE_CHECK_HINT_UNION_ARG_PEP`): the child's placeholder. -/
def PEP_CODE_CHECK_HINT_UNION_ARG_PEP (ph : String) : String := ph ++ " or"

/-- One disjunct appended by the union branch, in append order: the
single merged-tuple instance-of test, or an enqueued child
placeholder. -/
inductive UnionPiece : Type where
  | nonpep (pith : String) (types : List Cls)
  | pep (ph : String)
deriving DecidableEq, Repr

/-- Textual rendering of a union disjunct. -/
def renderUnionPiece (hashT : List Cls → Int) : UnionPiece → String
  | .nonpep pith types =>
    PEP_CODE_CHECK_HINT_UNION_ARG_NONPEP pith
      (register_typistry_tuple hashT types)
  | .pep ph => PEP_CODE_CHECK_HINT_UNION_ARG_PEP ph

/-- Hint metadata carried on the work queue: the hint, its
placeholder, its pith expression and its indentation. -/
structure Meta : Type where
  hint : Hint
  ph : String
  pith : String
  indent : String
deriving DecidableEq

/-- Metadata enqueued for the PEP children of a union, in iteration
order, with consecutive placeholders minted from `counter`; each
child inherits the union's own pith (unions do not narrow). -/
def unionEnqueue (pith indent : String) : List Hint → Nat → List Meta
  | [], _ => []
  | c :: rest, n =>
    ⟨c, placeholder n, pith, indent⟩ :: unionEnqueue pith indent rest (n + 1)

/-- Disjunct list appended by the union branch: the nonpep test first
(when the nonpep set is non-empty), then one placeholder per enqueued
child, in enqueue order. -/
def unionPieces (enumC : List Cls → List Cls) (np : List Cls) (pith : String)
    (ms : List Meta) : List UnionPiece :=
  (if np.isEmpty then [] else [.nonpep pith (enumC np)]) ++
    ms.map (fun m => .pep m.ph)

/-- Union code fragment: if no disjunct was appended the fragment is
the bare union prefix (the identity test `func_curr_code is not
PEP_CODE_CHECK_HINT_UNION_PREFIX` fails and the munge is skipped);
otherwise the rendered disjuncts are concatenated after the prefix,
the trailing ` or` of the last disjunct is stripped (`[:-3]`), and
the suffix is appended. -/
def unionCode (hashT : List Cls → Int) (pieces : List UnionPiece) : String :=
  if pieces.isEmpty then PEP_CODE_CHECK_HINT_UNION_PRE
  else
    (PEP_CODE_CHECK_HINT_UNION_PRE ++
        String.join (pieces.map (renderUnionPiece hashT))).dropRight 3 ++
      PEP_CODE_CHECK_HINT_UNION_POST

/-- Error text of the work-queue capacity overflow raised by
`pep_code_check_hint` (`'{} contains more than {} "typing"
types.'.format(hint_root_label, SIZE_BIG)`). -/
def capacityMsg (label : String) (cap : Nat) : String :=
  label ++ " contains more than " ++ toString cap ++ " \"typing\" types."

/-- Mutable state of one `pep_code_check_hint` invocation: the output
program, the placeholder counter, `hints_meta_index_last`, and the
`is_func_wrapper_needs_random_int` flag. -/
structure CompState : Type where
  funcCode : String
  counter : Nat
  indexLast : Nat
  needsRandomInt : Bool
deriving DecidableEq, Repr

/-- Processing of one dequeued hint: classify its kind, splice its
code fragment into the program over its placeholder, and return the
child metadata to enqueue. Capacity checks guard every enqueue,
raising the capacity error before enqueuing. (The sequence branch of
the source sets the random-int flag just before its capacity check;
since the raised exception aborts the compilation, the flag is only
observable on success and is modelled as set on success.) -/
def hintStep (hashT : List Cls → Int) (enumC : List Cls → List Cls)
    (enumH : List Hint → List Hint) (cap : Nat) (label : String)
    (m : Meta) (st : CompState) : Except BErr (CompState × List Meta) :=
  match m.hint with
  | .ign => .error (.assertFailed "ignorable hint visited")
  | .cls c =>
    .ok ({ st with
      funcCode := st.funcCode.replace m.ph
        (PEP_CODE_CHECK_HINT_NONPEP_TYPE m.pith (register_typistry_type c)) },
      [])
  | .other origin =>
    .ok ({ st with
      funcCode := st.funcCode.replace m.ph
        (PEP_CODE_CHECK_HINT_NONPEP_TYPE m.pith
          (register_typistry_type origin)) }, [])
  | .seqStd origin child =>
    let expr := register_typistry_type origin
    if child = Hint.ign then
      .ok ({ st with
        funcCode := st.funcCode.replace m.ph
          (PEP_CODE_CHECK_HINT_NONPEP_TYPE m.pith expr) }, [])
    else
      if st.indexLast + 1 ≥ cap then
        .error (.decorHintPep (capacityMsg label cap))
      else
        let ph := placeholder st.counter
        .ok ({ st with
          funcCode := st.funcCode.replace m.ph
            (PEP_CODE_CHECK_HINT_SEQUENCE_STANDARD m.pith expr ph),
          counter := st.counter + 1,
          indexLast := st.indexLast + 1,
          needsRandomInt := true },
          [⟨child, ph,
            PEP_CODE_CHECK_HINT_SEQUENCE_STANDARD_PITH_CHILD_EXPR m.pith,
            m.indent ++ CODE_INDENT_1⟩])
  | .union cs =>
    if cs.isEmpty then .error (.assertFailed "union unsubscripted")
    else
      let np := (unionPartition cs).1
      let pp := (unionPartition cs).2
      if pp.isEmpty then
        .ok ({ st with
          funcCode := st.funcCode.replace m.ph
            (unionCode hashT (unionPieces enumC np m.pith [])) }, [])
      else
        if st.indexLast + pp.length ≥ cap then
          .error (.decorHintPep (capacityMsg label cap))
        else
          let ms := unionEnqueue m.pith (m.indent ++ CODE_INDENT_1)
            (enumH pp) st.counter
          .ok ({ st with
            funcCode := st.funcCode.replace m.ph
              (unionCode hashT (unionPieces enumC np m.pith ms)),
            counter := st.counter + ms.length,
            indexLast := st.indexLast + ms.length }, ms)

/-- Breadth-first drain of the work queue; `fuel` bounds iterations
(the capacity checks keep the queue finite, so `cap + 2` suffices for
any run started from a single root item). The drained loop raises
when the program never left its template value. -/
def compileLoop (hashT : List Cls → Int) (enumC : List Cls → List Cls)
    (enumH : List Hint → List Hint) (cap : Nat) (label : String)
    (rootCode : String) : Nat → List Meta → CompState → Except BErr String
  | _, [], st =>
    if st.funcCode = rootCode then
      .error (.decorHintPep (label ++ " not type-checked"))
    else .ok st.funcCode
  | 0, _ :: _, _ => .error (.assertFailed "fuel exhausted")
  | fuel + 1, m :: rest, st =>
    match hintStep hashT enumC enumH cap label m st with
    | .error e => .error e
    | .ok (st2, enq) =>
      compileLoop hashT enumC enumH cap label rootCode fuel (rest ++ enq) st2

/-- Entry point `pep_code_check_hint` (memoized through
`callable_cached` in the source): seed the queue with the root hint
under the first minted placeholder and the root pith, then drain. -/
def pep_code_check_hint (hashT : List Cls → Int) (enumC : List Cls → List Cls)
    (enumH : List Hint → List Hint) (cap : Nat) (label : String)
    (hint : Hint) : Except BErr String :=
  compileLoop hashT enumC enumH cap label
    (PEP_CODE_CHECK_HINT_ROOT (placeholder 0)) (cap + 2)
    [⟨hint, placeholder 0, PEP_CODE_PITH_ROOT_EXPR, CODE_INDENT_2⟩]
    ⟨PEP_CODE_CHECK_HINT_ROOT (placeholder 0), 1, 0, false⟩

/-- Consecutive placeholders minted starting at `n`. -/
def phList : Nat → Nat → List String
  | _, 0 => []
  | n, k + 1 => placeholder n :: phList (n + 1) k

theorem unionEnqueue_map_hint (pith indent : String) :
    ∀ (l : List Hint) (n : Nat),
      (unionEnqueue pith indent l n).map Meta.hint = l := by
  intro l
  induction l with
  | nil => intro n; rfl
  | cons c rest ih =>
    intro n
    simp [unionEnqueue, ih]

theorem unionEnqueue_map_ph (pith indent : String) :
    ∀ (l : List Hint) (n : Nat),
      (unionEnqueue pith indent l n).map Meta.ph = phList n l.length := by
  intro l
  induction l with
  | nil => intro n; rfl
  | cons c rest ih =>
    intro n
    simp [unionEnqueue, phList, ih]

theorem unionEnqueue_length (pith indent : String) :
    ∀ (l : List Hint) (n : Nat),
      (unionEnqueue pith indent l n).length = l.length := by
  intro l
  induction l with
  | nil => intro n; rfl
  | cons c rest ih =>
    intro n
    simp [unionEnqueue, ih]

theorem unionPartitionAux_all_ign :
    ∀ (cs : List Hint) (np : List Cls) (pp : List Hint),
      (∀ c ∈ cs, c = Hint.ign) → unionPartitionAux cs np pp = (np, pp) := by
  intro cs
  induction cs with
  | nil => intro np pp _; rfl
  | cons c rest ih =>
    intro np pp hign
    have hc : c = Hint.ign := hign c (List.mem_cons_self c rest)
    subst hc
    exact ih np pp (fun x hx => hign x (List.mem_cons_of_mem _ hx))

/-- C8. A visited union all of whose subscripted children are
ignorable contributes no code: both prefiltered sets come out empty,
the node's fragment is the bare (empty) union prefix, so the node's
placeholder is replaced by nothing and no child is enqueued — the
union is fully elided from the output program. -/
theorem union_all_ignorable_elided (hashT : List Cls → Int)
    (enumC : List Cls → List Cls) (enumH : List Hint → List Hint)
    (cap : Nat) (label : String) (m : Meta) (st : CompState)
    (cs : List Hint) (hhint : m.hint = .union cs) (hne : cs ≠ [])
    (hign : ∀ c ∈ cs, c = Hint.ign) :
    hintStep hashT enumC enumH cap label m st =
      .ok ({ st with funcCode := st.funcCode.replace m.ph "" }, []) := by
  have hpart : unionPartition cs = ([], []) :=
    unionPartitionAux_all_ign cs [] [] hign
  have hcs : cs.isEmpty = false := by
    cases cs with
    | nil => exact absurd rfl hne
    | cons _ _ => rfl
  simp [hintStep, hhint, hcs, hpart, unionPieces, unionCode,
    PEP_CODE_CHECK_HINT_UNION_PRE]

/-- Witness for C8 at a concrete two-child all-ignorable union. -/
theorem union_all_ignorable_elided_witness :
    hintStep (fun _ => (0 : Int)) (fun l => l) (fun l => l) 16 "L"
        ⟨.union [.ign, .ign], "@0!", "P", ""⟩ ⟨"A@0!B", 1, 0, false⟩ =
      .ok (⟨"A@0!B".replace "@0!" "", 1, 0, false⟩, []) :=
  union_all_ignorable_elided (fun _ => (0 : Int)) (fun l => l) (fun l => l)
    16 "L" ⟨.union [.ign, .ign], "@0!", "P", ""⟩ ⟨"A@0!B", 1, 0, false⟩
    [.ign, .ign] rfl (by decide) (by decide)

/-- C4 counterexample: the capacity error text does not report how
many sub-constraints were found. A union of five distinct compound
children against capacity 3 raises the capacity error, whose text
contains the limit digit `3` but no digit `5` — the found count is
absent from the message. -/
theorem capacity_error_lacks_count_cex :
    hintStep (fun _ => (0 : Int)) (fun l => l) (fun l => l) 3 "L"
        ⟨.union [.other ⟨20, "o1", true, true⟩, .other ⟨21, "o2", true, true⟩,
          .other ⟨22, "o3", true, true⟩, .other ⟨23, "o4", true, true⟩,
          .other ⟨24, "o5", true, true⟩], "@0!", "P", ""⟩
        ⟨"R", 1, 0, false⟩ =
        .error (.decorHintPep (capacityMsg "L" 3)) ∧
      (unionPartition [.other ⟨20, "o1", true, true⟩,
          .other ⟨21, "o2", true, true⟩, .other ⟨22, "o3", true, true⟩,
          .other ⟨23, "o4", true, true⟩,
          .other ⟨24, "o5", true, true⟩]).2.length = 5 ∧
      ('5' ∉ (capacityMsg "L" 3).data) ∧ ('3' ∈ (capacityMsg "L" 3).data) := by
  refine ⟨by decide, by decide, by decide, by decide⟩

/-- C4 amended. Whenever processing a dequeued hint would enqueue
child metadata past the fixed capacity — a union whose PEP-children
set would overrun, or a sequence child with the queue already at the
bound — the compiler raises the capacity error before enqueuing
anything, and the whole loop surfaces that error rather than any
truncated program; the error text reports the capacity limit (but not
the number of sub-constraints found). -/
theorem capacity_overflow_raises (hashT : List Cls → Int)
    (enumC : List Cls → List Cls) (enumH : List Hint → List Hint)
    (cap : Nat) (label : String) (m : Meta) (st : CompState)
    (rest : List Meta) (rootCode : String) (fuel : Nat) :
    (∀ cs, m.hint = .union cs → (unionPartition cs).2 ≠ [] →
      cap ≤ st.indexLast + (unionPartition cs).2.length →
      hintStep hashT enumC enumH cap label m st =
          .error (.decorHintPep (capacityMsg label cap)) ∧
        compileLoop hashT enumC enumH cap label rootCode (fuel + 1)
            (m :: rest) st =
          .error (.decorHintPep (capacityMsg label cap))) ∧
    (∀ origin child, m.hint = .seqStd origin child → child ≠ Hint.ign →
      cap ≤ st.indexLast + 1 →
      hintStep hashT enumC enumH cap label m st =
          .error (.decorHintPep (capacityMsg label cap)) ∧
        compileLoop hashT enumC enumH cap label rootCode (fuel + 1)
            (m :: rest) st =
          .error (.decorHintPep (capacityMsg label cap))) := by
  constructor
  · intro cs hhint hpp hcap
    have hcs : cs.isEmpty = false := by
      cases cs with
      | nil => simp [unionPartition, unionPartitionAux] at hpp
      | cons _ _ => rfl
    have hppe : (unionPartition cs).2.isEmpty = false := by
      cases hp : (unionPartition cs).2 with
      | nil => exact absurd hp hpp
      | cons _ _ => rfl
    have hstep : hintStep hashT enumC enumH cap label m st =
        .error (.decorHintPep (capacityMsg label cap)) := by
      simp [hintStep, hhint, hcs, hppe, hcap]
    exact ⟨hstep, by simp [compileLoop, hstep]⟩
  · intro origin child hhint hchild hcap
    have hstep : hintStep hashT enumC enumH cap label m st =
        .error (.decorHintPep (capacityMsg label cap)) := by
      simp [hintStep, hhint, hchild, hcap]
    exact ⟨hstep, by simp [compileLoop, hstep]⟩

/-- Witness for C4's amended theorem: a five-compound-child union at
capacity 3, and a sequence child with the queue index already past
capacity, both raise the capacity error through the loop. -/
theorem capacity_overflow_raises_witness :
    (hintStep (fun _ => (0 : Int)) (fun l => l) (fun l => l) 3 "L"
          ⟨.union [.other ⟨20, "o1", true, true⟩, .other ⟨21, "o2", true, true⟩,
            .other ⟨22, "o3", true, true⟩, .other ⟨23, "o4", true, true⟩,
            .other ⟨24, "o5", true, true⟩], "@0!", "P", ""⟩
          ⟨"R", 1, 0, false⟩ =
        .error (.decorHintPep (capacityMsg "L" 3)) ∧
      compileLoop (fun _ => (0 : Int)) (fun l => l) (fun l => l) 3 "L" "R0"
          (7 + 1)
          [⟨.union [.other ⟨20, "o1", true, true⟩, .other ⟨21, "o2", true, true⟩,
            .other ⟨22, "o3", true, true⟩, .other ⟨23, "o4", true, true⟩,
            .other ⟨24, "o5", true, true⟩], "@0!", "P", ""⟩]
          ⟨"R", 1, 0, false⟩ =
        .error (.decorHintPep (capacityMsg "L" 3))) ∧
    (hintStep (fun _ => (0 : Int)) (fun l => l) (fun l => l) 3 "L"
          ⟨.seqStd ⟨30, "list", true, true⟩ (.cls clsA), "@0!", "P", ""⟩
          ⟨"R", 1, 5, false⟩ =
        .error (.decorHintPep (capacityMsg "L" 3)) ∧
      compileLoop (fun _ => (0 : Int)) (fun l => l) (fun l => l) 3 "L" "R0"
          (7 + 1)
          [⟨.seqStd ⟨30, "list", true, true⟩ (.cls clsA), "@0!", "P", ""⟩]
          ⟨"R", 1, 5, false⟩ =
        .error (.decorHintPep (capacityMsg "L" 3))) :=
  ⟨(capacity_overflow_raises (fun _ => (0 : Int)) (fun l => l) (fun l => l)
      3 "L" ⟨.union [.other ⟨20, "o1", true, true⟩, .other ⟨21, "o2", true, true⟩,
        .other ⟨22, "o3", true, true⟩, .other ⟨23, "o4", true, true⟩,
        .other ⟨24, "o5", true, true⟩], "@0!", "P", ""⟩ ⟨"R", 1, 0, false⟩
      [] "R0" 7).1 _ rfl (by decide) (by decide),
    (capacity_overflow_raises (fun _ => (0 : Int)) (fun l => l) (fun l => l)
      3 "L" ⟨.seqStd ⟨30, "list", true, true⟩ (.cls clsA), "@0!", "P", ""⟩
      ⟨"R", 1, 5, false⟩ [] "R0" 7).2 _ _ rfl (by decide) (by decide)⟩

/-- Compound union child used in the C2 counterexample and witness. -/
def uChildAEx : Hint := .union [.cls clsA, .cls clsB]

/-- Compound union child used in the C2 counterexample and witness. -/
def uChildBEx : Hint := .other ⟨15, "tuple", true, true⟩

/-- Union argument list used in the C2 counterexample and witness:
one plain child followed by two compound children. -/
def uArgsEx : List Hint := [.cls clsA, uChildAEx, uChildBEx]

/-- C2 counterexample: the per-compound-child placeholders follow the
iteration order of the PEP-children set, not discovery order. The
children are discovered in the order `[uChildAEx, uChildBEx]`, but
under a set-iteration order reversing them (legal for a Python set)
the enqueued metadata — and hence the emitted placeholders — pair the
first placeholder with the second-discovered child. -/
theorem union_discovery_order_cex :
    (unionPartition uArgsEx).2 = [uChildAEx, uChildBEx] ∧
      (hintStep (fun _ => (0 : Int)) (fun l => l) List.reverse 16 "L"
            ⟨.union uArgsEx, "@0!", "P", ""⟩ ⟨"R@0!", 1, 0, false⟩).toOption.map
          (fun p => p.2.map Meta.hint) =
        some [uChildBEx, uChildAEx] ∧
      ([uChildBEx, uChildAEx] : List Hint) ≠ [uChildAEx, uChildBEx] := by
  refine ⟨by decide, by decide, by decide⟩

/-- C2 amended. For a visited union with at least one plain and at
least one compound unignorable child, under any iteration orders of
the two prefiltered sets (Python guarantees only that set iteration
is some permutation): the emitted disjunction consists of exactly one
instance-of test — against one registered tuple that contains every
plain child (merged with the origin classes of compound children) —
followed by one placeholder per distinct compound child; the
placeholders are minted consecutively and appear in the set's
iteration order (not necessarily discovery order), pairing in that
order with the enqueued child metadata. -/
theorem union_disjunction_structure (hashT : List Cls → Int)
    (enumC : List Cls → List Cls) (enumH : List Hint → List Hint)
    (cap : Nat) (label : String) (m : Meta) (st : CompState)
    (cs : List Hint) (np : List Cls) (pp : List Hint) (ms : List Meta)
    (hhint : m.hint = .union cs)
    (hpart : unionPartition cs = (np, pp))
    (hms : ms = unionEnqueue m.pith (m.indent ++ CODE_INDENT_1)
      (enumH pp) st.counter)
    (hnp : np ≠ []) (hpp : pp ≠ [])
    (hpermC : (enumC np).Perm np) (hpermH : (enumH pp).Perm pp)
    (hcap : st.indexLast + pp.length < cap) :
    hintStep hashT enumC enumH cap label m st =
        .ok ({ st with
          funcCode := st.funcCode.replace m.ph
            (unionCode hashT (unionPieces enumC np m.pith ms)),
          counter := st.counter + ms.length,
          indexLast := st.indexLast + ms.length }, ms) ∧
      unionPieces enumC np m.pith ms =
        UnionPiece.nonpep m.pith (enumC np) ::
          ms.map (fun x => UnionPiece.pep x.ph) ∧
      ms.map Meta.hint = enumH pp ∧
      ms.map Meta.ph = phList st.counter pp.length ∧
      ms.length = pp.length ∧
      (∀ c ∈ np, c ∈ enumC np) := by
  have hcs : cs.isEmpty = false := by
    cases cs with
    | nil =>
      rw [show unionPartition [] = (([] : List Cls), ([] : List Hint)) from rfl]
        at hpart
      injection hpart with h1 h2
      exact absurd h2.symm hpp
    | cons _ _ => rfl
  have hnpe : np.isEmpty = false := by
    cases np with
    | nil => exact absurd rfl hnp
    | cons _ _ => rfl
  have hppe : pp.isEmpty = false := by
    cases pp with
    | nil => exact absurd rfl hpp
    | cons _ _ => rfl
  have hlen : ms.length = pp.length := by
    rw [hms, unionEnqueue_length, hpermH.length_eq]
  have hcap2 : ¬ cap ≤ st.indexLast + pp.length := by omega
  refine ⟨?_, ?_, ?_, ?_, hlen, ?_⟩
  · rw [hms]
    simp [hintStep, hhint, hcs, hpart, hppe, hcap2, unionEnqueue_length,
      hpermH.length_eq]
  · simp [unionPieces, hnpe]
  · rw [hms, unionEnqueue_map_hint]
  · rw [hms, unionEnqueue_map_ph, hpermH.length_eq]
  · intro c hc
    exact hpermC.mem_iff.mpr hc

/-- Witness for C2's amended theorem at the concrete three-child
union, with identity iteration orders. -/
theorem union_disjunction_structure_witness :
    hintStep (fun _ => (0 : Int)) (fun l => l) (fun l => l) 16 "L"
        ⟨.union uArgsEx, "@0!", "P", ""⟩ ⟨"R@0!", 1, 0, false⟩ =
        .ok (⟨"R@0!".replace "@0!"
            (unionCode (fun _ => (0 : Int))
              (unionPieces (fun l => l) [clsA, ⟨15, "tuple", true, true⟩] "P"
                [⟨uChildAEx, "@1!", "P", CODE_INDENT_1⟩,
                  ⟨uChildBEx, "@2!", "P", CODE_INDENT_1⟩])),
            1 + 2, 0 + 2, false⟩,
          [⟨uChildAEx, "@1!", "P", CODE_INDENT_1⟩,
            ⟨uChildBEx, "@2!", "P", CODE_INDENT_1⟩]) ∧
      unionPieces (fun l => l) [clsA, ⟨15, "tuple", true, true⟩] "P"
          [⟨uChildAEx, "@1!", "P", CODE_INDENT_1⟩,
            ⟨uChildBEx, "@2!", "P", CODE_INDENT_1⟩] =
        UnionPiece.nonpep "P" ((fun l => l) [clsA, ⟨15, "tuple", true, true⟩]) ::
          [⟨uChildAEx, "@1!", "P", CODE_INDENT_1⟩,
            (⟨uChildBEx, "@2!", "P", CODE_INDENT_1⟩ : Meta)].map
            (fun x => UnionPiece.pep x.ph) ∧
      [⟨uChildAEx, "@1!", "P", CODE_INDENT_1⟩,
          (⟨uChildBEx, "@2!", "P", CODE_INDENT_1⟩ : Meta)].map Meta.hint =
        (fun l => l) [uChildAEx, uChildBEx] ∧
      [⟨uChildAEx, "@1!", "P", CODE_INDENT_1⟩,
          (⟨uChildBEx, "@2!", "P", CODE_INDENT_1⟩ : Meta)].map Meta.ph =
        phList 1 [uChildAEx, uChildBEx].length ∧
      [⟨uChildAEx, "@1!", "P", CODE_INDENT_1⟩,
          (⟨uChildBEx, "@2!", "P", CODE_INDENT_1⟩ : Meta)].length =
        [uChildAEx, uChildBEx].length ∧
      (∀ c ∈ [clsA, (⟨15, "tuple", true, true⟩ : Cls)],
        c ∈ (fun l => l) [clsA, (⟨15, "tuple", true, true⟩ : Cls)]) :=
  union_disjunction_structure (fun _ => (0 : Int)) (fun l => l) (fun l => l)
    16 "L" ⟨.union uArgsEx, "@0!", "P", ""⟩ ⟨"R@0!", 1, 0, false⟩
    uArgsEx [clsA, ⟨15, "tuple", true, true⟩] [uChildAEx, uChildBEx]
    [⟨uChildAEx, "@1!", "P", CODE_INDENT_1⟩,
      ⟨uChildBEx, "@2!", "P", CODE_INDENT_1⟩]
    rfl (by decide) (by decide) (by decide) (by decide)
    (by decide) (by decide) (by decide)

end Beartype
